import Mathlib

/-!
Verification of the message segmenter and the locked/identifier memory
containers of `sopel/tools/__init__.py`.

The segmenter `get_sendable_message` is embedded over `List Char` (a Python
`str` is a sequence of Unicode code points); the byte budget counts UTF-8
encoded bytes (`len(text.encode('utf-8'))`), modelled by `byteLen`.
The memory classes are embedded as explicit records carrying the
dictionary contents (an insertion-ordered association list, mirroring a
Python `dict`) and the mutual-exclusion lock's held/free state.
-/

set_option autoImplicit false

namespace Sopel

/-! ## Segmenter: data model -/

/-- Number of bytes in the UTF-8 encoding of one code point, as computed by
Python's `len(c.encode('utf-8'))` for a character `c`. -/
def utf8Len (c : Char) : Nat :=
  if c.toNat < 128 then 1
  else if c.toNat < 2048 then 2
  else if c.toNat < 65536 then 3
  else 4

/-- `len(text.encode('utf-8'))`: total UTF-8 byte length of a text. -/
def byteLen : List Char → Nat
  | [] => 0
  | c :: t => utf8Len c + byteLen t

/-- The set of code points stripped by Python's `str.lstrip()` (Unicode
whitespace in the sense of `str.isspace`). -/
def pySpace (c : Char) : Bool :=
  c == ' ' ||
  (Nat.ble 0x09 c.toNat && Nat.ble c.toNat 0x0D) ||
  (Nat.ble 0x1C c.toNat && Nat.ble c.toNat 0x1F) ||
  c.toNat == 0x85 || c.toNat == 0xA0 || c.toNat == 0x1680 ||
  (Nat.ble 0x2000 c.toNat && Nat.ble c.toNat 0x200A) ||
  c.toNat == 0x2028 || c.toNat == 0x2029 || c.toNat == 0x202F ||
  c.toNat == 0x205F || c.toNat == 0x3000

/-- Python `str.lstrip()`: drop the leading whitespace code points. -/
def lstrip (l : List Char) : List Char := l.dropWhile pySpace

/-- Index of the last occurrence of the space character `' '` in a list, if
any.  `lastSpaceIdx (text.take e)` is Python's `text.rfind(' ', 0, e)`
(with `none` standing for the `-1` "not found" result). -/
def lastSpaceIdx : List Char → Option Nat
  | [] => none
  | c :: t =>
    match lastSpaceIdx t with
    | some i => some (i + 1)
    | none => if c = ' ' then some 0 else none

/-- The loop state of `get_sendable_message`: the local variables `text`,
`excess` and `unicode_max_length` (here `uml`). -/
structure GsmState where
  text : List Char
  excess : List Char
  uml : Nat
deriving DecidableEq, Repr

/-- One iteration of the `while` loop of `get_sendable_message`
(src lines 268-279).  Returns `none` when the loop guard
`len(text.encode('utf-8')) > max_length` fails, otherwise the state after
one execution of the loop body:

* `last_space = text.rfind(' ', 0, unicode_max_length)`;
* if not found (`none`): `excess = text[unicode_max_length:] + excess`,
  `text = text[:unicode_max_length]`,
  `unicode_max_length = unicode_max_length - 1`;
* if found at `i`: `excess = text[last_space:]` (note: the previously
  accumulated excess is discarded, not prepended to),
  `text = text[:last_space]`. -/
def gsmStep (maxLen : Nat) (s : GsmState) : Option GsmState :=
  if byteLen s.text ≤ maxLen then
    none
  else
    match lastSpaceIdx (s.text.take s.uml) with
    | none => some ⟨s.text.take s.uml, s.text.drop s.uml ++ s.excess, s.uml - 1⟩
    | some i => some ⟨s.text.take i, s.text.drop i, s.uml⟩

/-- The `while` loop of `get_sendable_message`, iterated to completion. -/
def gsmLoop (maxLen : Nat) (s : GsmState) : GsmState :=
  match h : gsmStep maxLen s with
  | none => s
  | some s' => gsmLoop maxLen s'
termination_by s.uml + s.text.length
decreasing_by
  have hlen : ∀ (l : List Char) (i : Nat), lastSpaceIdx l = some i → i < l.length := by
    intro l
    induction l with
    | nil => intro i hi; simp [lastSpaceIdx] at hi
    | cons c t ih =>
      intro i hi
      simp only [lastSpaceIdx] at hi
      cases hls : lastSpaceIdx t with
      | some j =>
        rw [hls] at hi
        cases hi
        have := ih j hls
        simp only [List.length_cons]
        omega
      | none =>
        rw [hls] at hi
        by_cases hc : c = ' '
        · rw [if_pos hc] at hi
          cases hi
          simp
        · rw [if_neg hc] at hi
          cases hi
  have hstep := h
  simp only [gsmStep] at hstep
  by_cases hb : byteLen s.text ≤ maxLen
  · rw [if_pos hb] at hstep
    cases hstep
  · rw [if_neg hb] at hstep
    have htne : s.text ≠ [] := by
      intro he
      rw [he] at hb
      simp [byteLen] at hb
    have hlen0 : 0 < s.text.length := List.length_pos.mpr htne
    cases hls : lastSpaceIdx (s.text.take s.uml) with
    | none =>
      rw [hls] at hstep
      cases hstep
      simp only [List.length_take]
      omega
    | some i =>
      rw [hls] at hstep
      cases hstep
      have hi := hlen _ _ hls
      simp only [List.length_take] at hi
      simp only [List.length_take]
      omega

/-- Fuel-indexed run of the same loop: `none` when the fuel is exhausted
before the loop guard fails, `some` of the final state otherwise.  Used to
state termination and to evaluate the loop on concrete inputs. -/
def gsmRun (maxLen : Nat) : Nat → GsmState → Option GsmState
  | 0, _ => none
  | fuel + 1, s =>
    match gsmStep maxLen s with
    | none => some s
    | some s' => gsmRun maxLen fuel s'

/-- `get_sendable_message(text, max_length=400)` (src lines 247-281):
initialise `unicode_max_length = max_length`, `excess = ''`, run the loop,
and return `text, excess.lstrip()`. -/
def get_sendable_message (text : List Char) (max_length : Nat := 400) :
    List Char × List Char :=
  let r := gsmLoop max_length ⟨text, [], max_length⟩
  (r.text, lstrip r.excess)

/-! ## Locked map (`SopelMemory`): data model

A Python `dict` is modelled as an insertion-ordered association list with
pairwise distinct keys; `dlookup`/`assocSet` are `dict.__getitem__` /
`dict.__setitem__`.  Whether `dict.__setitem__`/`__contains__` raises on a
given key (an unhashable key raises `TypeError`) is abstracted by a
predicate `hashable`. -/

variable {K V : Type}

/-- `dict.__getitem__`-style lookup in an association list. -/
def dlookup [DecidableEq K] : List (K × V) → K → Option V
  | [], _ => none
  | (k', v') :: t, k => if k' = k then some v' else dlookup t k

/-- `dict.__setitem__` on the contents: overwrite in place if the key is
present (Python preserves the original insertion position), append
otherwise. -/
def assocSet [DecidableEq K] : List (K × V) → K → V → List (K × V)
  | [], k, v => [(k, v)]
  | (k', v') :: t, k, v =>
    if k' = k then (k, v) :: t else (k', v') :: assocSet t k v

/-- `dict(pairs)`: build dictionary contents from a sequence of key/value
pairs, later pairs overwriting earlier ones. -/
def dictOfPairs [DecidableEq K] (ps : List (K × V)) : List (K × V) :=
  ps.foldl (fun d p => assocSet d p.1 p.2) []

/-- `SopelMemory` (src lines 406-448): a `dict` subclass carrying a
`threading.Lock`.  `lockHeld` is the lock's state (`false` = free). -/
structure SopelMemory (K V : Type) where
  data : List (K × V)
  lockHeld : Bool
deriving DecidableEq

/-- `SopelMemory.__init__` (src lines 420-422): initialise the dict from
the given pairs and create a fresh (free) lock. -/
def SopelMemory.init [DecidableEq K] (ps : List (K × V)) : SopelMemory K V :=
  ⟨dictOfPairs ps, false⟩

/-- Outcome of a mutating call on a `SopelMemory`:

* `ok m` – the method returned normally, leaving state `m`;
* `raised m` – the underlying dict operation raised; the exception
  propagates to the caller and the state at that moment is `m`;
* `blocked` – `self.lock.acquire()` found the lock already held, so the
  call blocks and never returns (sequentially: a deadlock). -/
inductive MemOutcome (K V : Type) where
  | ok (m : SopelMemory K V)
  | raised (m : SopelMemory K V)
  | blocked
deriving DecidableEq

/-- `SopelMemory.__setitem__` (src lines 424-432):
`self.lock.acquire()`; `dict.__setitem__(self, key, value)`;
`self.lock.release()`.  There is no `try`/`finally`: when the underlying
insert raises, `release()` is never executed, so the exception propagates
with the lock still held. -/
def memSetitem [DecidableEq K] (hashable : K → Bool) (m : SopelMemory K V)
    (k : K) (v : V) : MemOutcome K V :=
  if m.lockHeld then .blocked
  else if hashable k then .ok ⟨assocSet m.data k v, false⟩
  else .raised ⟨m.data, true⟩

/-- Outcome of `SopelMemory.__contains__`: as `MemOutcome`, with the
membership result on the normal path. -/
inductive ContainsOutcome (K V : Type) where
  | ok (m : SopelMemory K V) (b : Bool)
  | raised (m : SopelMemory K V)
  | blocked
deriving DecidableEq

/-- `SopelMemory.__contains__` (src lines 434-442):
`self.lock.acquire()`; `dict.__contains__(self, key)`;
`self.lock.release()`; return the result.  Like `__setitem__`, no
`try`/`finally`. -/
def memContains [DecidableEq K] (hashable : K → Bool) (m : SopelMemory K V)
    (k : K) : ContainsOutcome K V :=
  if m.lockHeld then .blocked
  else if hashable k then .ok ⟨m.data, false⟩ (dlookup m.data k).isSome
  else .raised ⟨m.data, true⟩

/-- `dict.__eq__` on contents: two dictionaries are equal when they hold
the same key/value associations (insertion order is irrelevant). -/
def dictEq [DecidableEq K] [DecidableEq V] (d1 d2 : List (K × V)) : Bool :=
  d1.all (fun p => dlookup d2 p.1 == some p.2) &&
  d2.all (fun p => dlookup d1 p.1 == some p.2)

/-- `SopelMemory.__eq__ = dict.__eq__` (src line 446): equality compares
only the stored contents; the `lock` attribute takes no part. -/
def memEq [DecidableEq K] [DecidableEq V] (a b : SopelMemory K V) : Bool :=
  dictEq a.data b.data

/-- `SopelMemory.__hash__ = dict.__hash__` (src line 448): `dict.__hash__`
is `None`, so instances are unhashable; no hash value exists. -/
def memHash (_ : SopelMemory K V) : Option Nat := none

/-! ## Identifier map (`SopelIdentifierMemory`): data model

`Identifier` is a `str` subclass, so raw keys and normalised keys inhabit
one type `K`; the identifier factory may fail to convert a key (Python: it
raises), modelled by an `Option`-valued factory. -/

/-- `SopelIdentifierMemory` (src lines 484-548): a `SopelMemory` together
with the stored `make_identifier` factory. -/
structure SopelIdentifierMemory (K V : Type) where
  mem : SopelMemory K V
  make_identifier : K → Option K

/-- `SopelIdentifierMemory.__init__` (src lines 532-539):
`super().__init__(*args)` hands the seed pairs to `dict.__init__`
unchanged — the factory is *not* applied to them — then the factory is
stored. -/
def SopelIdentifierMemory.init [DecidableEq K] (factory : K → Option K)
    (ps : List (K × V)) : SopelIdentifierMemory K V :=
  ⟨SopelMemory.init ps, factory⟩

/-- Outcome of `SopelIdentifierMemory.__setitem__`: as `MemOutcome`, plus
`convError key` for the case where `self.make_identifier(key)` itself
raises (the conversion error propagates before any lock or dict
activity). -/
inductive SimResult (K V : Type) where
  | ok (m : SopelIdentifierMemory K V)
  | convError (key : K)
  | raised (m : SopelIdentifierMemory K V)
  | blocked

/-- `SopelIdentifierMemory.__setitem__` (src lines 547-548):
`super().__setitem__(self.make_identifier(key), value)`.  The factory runs
first; on success the locked base-class insert runs on the normalised
key (an `Identifier` is always hashable, hence the underlying insert
succeeds). -/
def simSetitem [DecidableEq K] (m : SopelIdentifierMemory K V) (k : K)
    (v : V) : SimResult K V :=
  match m.make_identifier k with
  | none => .convError k
  | some i =>
    match memSetitem (fun _ => true) m.mem i v with
    | .ok mm => .ok ⟨mm, m.make_identifier⟩
    | .raised mm => .raised ⟨mm, m.make_identifier⟩
    | .blocked => .blocked

/-- `SopelIdentifierMemory.__getitem__` (src lines 541-542):
`super().__getitem__(self.make_identifier(key))` — the base class does not
override `__getitem__`, so this is an unlocked `dict.__getitem__` on the
normalised key.  `.error k` is the factory's conversion error; `.ok none`
is a `KeyError`. -/
def simGetitem [DecidableEq K] (m : SopelIdentifierMemory K V) (k : K) :
    Except K (Option V) :=
  match m.make_identifier k with
  | none => .error k
  | some i => .ok (dlookup m.mem.data i)

/-- Outcome of `SopelIdentifierMemory.__contains__`. -/
inductive SimBoolResult (K V : Type) where
  | ok (m : SopelIdentifierMemory K V) (b : Bool)
  | convError (key : K)
  | raised (m : SopelIdentifierMemory K V)
  | blocked

/-- `SopelIdentifierMemory.__contains__` (src lines 544-545):
`super().__contains__(self.make_identifier(key))` — factory first, then
the locked base-class membership test on the normalised key. -/
def simContains [DecidableEq K] (m : SopelIdentifierMemory K V) (k : K) :
    SimBoolResult K V :=
  match m.make_identifier k with
  | none => .convError k
  | some i =>
    match memContains (fun _ => true) m.mem i with
    | .ok mm b => .ok ⟨mm, m.make_identifier⟩ b
    | .raised mm => .raised ⟨mm, m.make_identifier⟩
    | .blocked => .blocked

/-- Apply one `__setitem__` call, keeping the previous state when the call
does not return normally (a conversion error raises before any mutation). -/
def simApplySet [DecidableEq K] (m : SopelIdentifierMemory K V)
    (p : K × V) : SopelIdentifierMemory K V :=
  match simSetitem m p.1 p.2 with
  | .ok m' => m'
  | _ => m

/-- Sample ASCII text used in concrete instantiations: the spec's example
input to the segmenter. -/
def sampleText : List Char :=
  ['T', 'h', 'e', ' ', 'q', 'u', 'i', 'c', 'k', ' ',
   'b', 'r', 'o', 'w', 'n', ' ', 'f', 'o', 'x', ' ',
   'j', 'u', 'm', 'p', 's']

/-- The text `"éé éé x yyyy"` (each `é` encodes to two UTF-8 bytes): with a
budget of 8 bytes the loop performs several whitespace cuts, each of which
overwrites the excess accumulated by the previous one. -/
def lossText : List Char :=
  ['é', 'é', ' ', 'é', 'é', ' ', 'x', ' ', 'y', 'y', 'y', 'y']

/-- The text `"aaaa\tbbbbbb"`: its only whitespace code point is a tab,
which `text.rfind(' ', ...)` does not look for. -/
def tabText : List Char :=
  ['a', 'a', 'a', 'a', '\t', 'b', 'b', 'b', 'b', 'b', 'b']

end Sopel

namespace Sopel

/-! ## Segmenter: loop lemmas -/

theorem lastSpaceIdx_lt_length :
    ∀ (l : List Char) (i : Nat), lastSpaceIdx l = some i → i < l.length := by
  intro l
  induction l with
  | nil => intro i hi; simp [lastSpaceIdx] at hi
  | cons c t ih =>
    intro i hi
    simp only [lastSpaceIdx] at hi
    cases hls : lastSpaceIdx t with
    | some j =>
      rw [hls] at hi
      cases hi
      have := ih j hls
      simp only [List.length_cons]
      omega
    | none =>
      rw [hls] at hi
      by_cases hc : c = ' '
      · rw [if_pos hc] at hi
        cases hi
        simp
      · rw [if_neg hc] at hi
        cases hi

theorem gsmStep_measure {maxLen : Nat} {s s' : GsmState}
    (h : gsmStep maxLen s = some s') :
    s'.uml + s'.text.length < s.uml + s.text.length := by
  have hstep := h
  simp only [gsmStep] at hstep
  by_cases hb : byteLen s.text ≤ maxLen
  · rw [if_pos hb] at hstep
    cases hstep
  · rw [if_neg hb] at hstep
    have htne : s.text ≠ [] := by
      intro he
      rw [he] at hb
      simp [byteLen] at hb
    have hlen0 : 0 < s.text.length := List.length_pos.mpr htne
    cases hls : lastSpaceIdx (s.text.take s.uml) with
    | none =>
      rw [hls] at hstep
      cases hstep
      simp only [List.length_take]
      omega
    | some i =>
      rw [hls] at hstep
      cases hstep
      have hi := lastSpaceIdx_lt_length _ _ hls
      simp only [List.length_take] at hi
      simp only [List.length_take]
      omega

theorem gsmStep_none_iff {maxLen : Nat} {s : GsmState} :
    gsmStep maxLen s = none ↔ byteLen s.text ≤ maxLen := by
  unfold gsmStep
  by_cases hb : byteLen s.text ≤ maxLen
  · simp [hb]
  · simp only [if_neg hb]
    constructor
    · intro h
      cases hls : lastSpaceIdx (s.text.take s.uml) <;> rw [hls] at h <;> cases h
    · intro h
      exact absurd h hb

theorem gsmLoop_exit {maxLen : Nat} {s : GsmState}
    (h : gsmStep maxLen s = none) : gsmLoop maxLen s = s := by
  rw [gsmLoop]
  split
  · rfl
  · rename_i s' heq
    rw [h] at heq
    cases heq

theorem gsmLoop_next {maxLen : Nat} {s s' : GsmState}
    (h : gsmStep maxLen s = some s') :
    gsmLoop maxLen s = gsmLoop maxLen s' := by
  conv_lhs => rw [gsmLoop]
  split
  · rename_i heq
    rw [h] at heq
    cases heq
  · rename_i s2 heq
    rw [h] at heq
    cases heq
    rfl

theorem gsmRun_some_eq {maxLen : Nat} :
    ∀ (fuel : Nat) (s s' : GsmState),
      gsmRun maxLen fuel s = some s' → gsmLoop maxLen s = s' := by
  intro fuel
  induction fuel with
  | zero => intro s s' h; cases h
  | succ n ih =>
    intro s s' h
    simp only [gsmRun] at h
    cases hstep : gsmStep maxLen s with
    | none =>
      rw [hstep] at h
      cases h
      exact gsmLoop_exit hstep
    | some s2 =>
      rw [hstep] at h
      rw [gsmLoop_next hstep]
      exact ih s2 s' h

theorem gsmRun_total {maxLen : Nat} :
    ∀ (fuel : Nat) (s : GsmState), s.uml + s.text.length < fuel →
      gsmRun maxLen fuel s = some (gsmLoop maxLen s) := by
  intro fuel
  induction fuel with
  | zero => intro s h; omega
  | succ n ih =>
    intro s h
    simp only [gsmRun]
    cases hstep : gsmStep maxLen s with
    | none => rw [gsmLoop_exit hstep]
    | some s2 =>
      rw [gsmLoop_next hstep]
      exact ih s2 (by have := gsmStep_measure hstep; omega)

theorem byteLen_gsmLoop_le (maxLen : Nat) :
    ∀ (n : Nat) (s : GsmState), s.uml + s.text.length ≤ n →
      byteLen (gsmLoop maxLen s).text ≤ maxLen := by
  intro n
  induction n with
  | zero =>
    intro s h
    have htext : s.text = [] := List.length_eq_zero.mp (by omega)
    have hnone : gsmStep maxLen s = none :=
      gsmStep_none_iff.mpr (by rw [htext]; simp [byteLen])
    rw [gsmLoop_exit hnone, htext]
    simp [byteLen]
  | succ n ih =>
    intro s h
    cases hstep : gsmStep maxLen s with
    | none =>
      rw [gsmLoop_exit hstep]
      exact gsmStep_none_iff.mp hstep
    | some s2 =>
      rw [gsmLoop_next hstep]
      exact ih s2 (by have := gsmStep_measure hstep; omega)

/-- Claim C5: for every input text and every byte budget of at least 4, the
sendable component of `get_sendable_message` has UTF-8 encoded length at
most the budget (the loop only exits when the remaining candidate fits,
and each excess fed back through the function again yields chunks within
the budget, since the bound holds for every input text). -/
theorem get_sendable_message_byte_bound (t : List Char) (maxLen : Nat)
    (h : 4 ≤ maxLen) :
    byteLen (get_sendable_message t maxLen).1 ≤ maxLen := by
  show byteLen (gsmLoop maxLen ⟨t, [], maxLen⟩).text ≤ maxLen
  exact byteLen_gsmLoop_le maxLen (maxLen + t.length) _ (le_refl _)

theorem get_sendable_message_byte_bound_witness :
    4 ≤ 10 ∧ byteLen (get_sendable_message sampleText 10).1 ≤ 10 :=
  ⟨by decide, get_sendable_message_byte_bound sampleText 10 (by decide)⟩

/-- Claim C6: the split loop of `get_sendable_message` terminates for every
input text and every (non-negative) byte budget: running the loop body
step by step reaches the exit within `maxLen + length + 1` iterations (the
combined measure `unicode_max_length + len(text)` strictly decreases on
both the hard-cut and the whitespace-cut path), and the state on exit
satisfies the negated loop guard, i.e. the candidate's encoded length is
at most the budget. -/
theorem gsm_terminates (maxLen : Nat) (t : List Char) :
    gsmRun maxLen (maxLen + t.length + 1) ⟨t, [], maxLen⟩ =
      some (gsmLoop maxLen ⟨t, [], maxLen⟩) ∧
    byteLen (gsmLoop maxLen ⟨t, [], maxLen⟩).text ≤ maxLen :=
  ⟨gsmRun_total _ _ (by simp), byteLen_gsmLoop_le maxLen (maxLen + t.length) _ (le_refl _)⟩

end Sopel

namespace Sopel

/-! ## Segmenter: whitespace search and reconstruction lemmas -/

theorem lastSpaceIdx_spec (l : List Char) :
    (lastSpaceIdx l = none → ∀ i, i < l.length → l.getD i 'A' ≠ ' ') ∧
    (∀ i, lastSpaceIdx l = some i → i < l.length ∧ l.getD i 'A' = ' ' ∧
      ∀ j, i < j → j < l.length → l.getD j 'A' ≠ ' ') := by
  induction l with
  | nil =>
    constructor
    · intro _ i hi
      simp at hi
    · intro i hi
      simp [lastSpaceIdx] at hi
  | cons c t ih =>
    obtain ⟨ihn, ihs⟩ := ih
    constructor
    · intro h i hi
      simp only [lastSpaceIdx] at h
      cases hls : lastSpaceIdx t with
      | some j =>
        rw [hls] at h
        cases h
      | none =>
        rw [hls] at h
        by_cases hc : c = ' '
        · rw [if_pos hc] at h
          cases h
        · cases i with
          | zero => simpa using hc
          | succ i2 =>
            simp only [List.getD_cons_succ]
            exact ihn hls i2 (by simp only [List.length_cons] at hi; omega)
    · intro i hi
      simp only [lastSpaceIdx] at hi
      cases hls : lastSpaceIdx t with
      | some j =>
        rw [hls] at hi
        cases hi
        obtain ⟨hjl, hjs, hjmax⟩ := ihs j hls
        refine ⟨by simp only [List.length_cons]; omega, by simpa using hjs, ?_⟩
        intro k hk1 hk2
        cases k with
        | zero => omega
        | succ k2 =>
          simp only [List.getD_cons_succ]
          exact hjmax k2 (by omega) (by simp only [List.length_cons] at hk2; omega)
      | none =>
        rw [hls] at hi
        by_cases hc : c = ' '
        · rw [if_pos hc] at hi
          cases hi
          refine ⟨by simp, by simpa using hc, ?_⟩
          intro k hk1 hk2
          cases k with
          | zero => omega
          | succ k2 =>
            simp only [List.getD_cons_succ]
            exact ihn hls k2 (by simp only [List.length_cons] at hk2; omega)
        · rw [if_neg hc] at hi
          cases hi

theorem byteLen_eq_length (l : List Char) (h : ∀ c ∈ l, utf8Len c = 1) :
    byteLen l = l.length := by
  induction l with
  | nil => rfl
  | cons c t ih =>
    simp only [byteLen, List.length_cons]
    rw [h c (by simp), ih (fun c2 hc => h c2 (by simp [hc]))]
    omega

theorem lstrip_reconstruct (a b t : List Char) (h : a ++ b = t) :
    ∃ ws : List Char, (∀ c ∈ ws, pySpace c = true) ∧ a ++ ws ++ lstrip b = t := by
  refine ⟨b.takeWhile pySpace, ?_, ?_⟩
  · intro c hc
    exact List.mem_takeWhile_imp hc
  · rw [lstrip, ← h, List.append_assoc, List.takeWhile_append_dropWhile]

/-- Claim C2 counterexample: the split is not content-preserving.  On the
input `"éé éé x yyyy"` with a budget of 8 bytes, the loop performs three
whitespace cuts; each one executes `excess = text[last_space:]`, replacing
(not prepending to) the excess accumulated before, so the code points
`'x'` and `'y'` of the input appear in neither component of the result. -/
theorem gsm_loses_content_cx :
    ('x' ∈ lossText) ∧
    get_sendable_message lossText 8 = (['é', 'é'], ['é', 'é']) ∧
    ('x' ∉ (get_sendable_message lossText 8).1 ++ (get_sendable_message lossText 8).2) := by
  have hrun : gsmRun 8 21 ⟨lossText, [], 8⟩ = some ⟨['é', 'é'], [' ', 'é', 'é'], 8⟩ := by
    decide
  have hloop := gsmRun_some_eq 21 _ _ hrun
  have hmsg : get_sendable_message lossText 8 = (['é', 'é'], ['é', 'é']) := by
    show ((gsmLoop 8 ⟨lossText, [], 8⟩).text, lstrip (gsmLoop 8 ⟨lossText, [], 8⟩).excess) = _
    rw [hloop]
    decide
  refine ⟨by decide, hmsg, ?_⟩
  rw [hmsg]
  decide

/-- Claim C2 (amended): the loop invariant `text ++ excess = input` holds
across hard cuts and across the first whitespace cut, but a later
whitespace cut discards the accumulated excess.  Content preservation
therefore holds whenever at most one whitespace cut can occur — in
particular for every input all of whose code points encode to a single
UTF-8 byte (then any first cut already brings the candidate within the
budget): concatenating the sendable part, the whitespace removed by the
single final left-strip, and the excess reconstructs the input. -/
theorem gsm_reconstruct_single_byte (t : List Char) (maxLen : Nat)
    (h1 : ∀ c ∈ t, utf8Len c = 1) :
    ∃ ws : List Char, (∀ c ∈ ws, pySpace c = true) ∧
      (get_sendable_message t maxLen).1 ++ ws ++ (get_sendable_message t maxLen).2 = t := by
  by_cases hb : byteLen t ≤ maxLen
  · have hstep : gsmStep maxLen ⟨t, [], maxLen⟩ = none := gsmStep_none_iff.mpr hb
    have hl := gsmLoop_exit hstep
    show ∃ ws, _ ∧
      (gsmLoop maxLen ⟨t, [], maxLen⟩).text ++ ws ++
        lstrip (gsmLoop maxLen ⟨t, [], maxLen⟩).excess = t
    rw [hl]
    exact ⟨[], by simp, by simp [lstrip]⟩
  · push_neg at hb
    have hlen : t.length = byteLen t := (byteLen_eq_length t h1).symm
    have hlt : maxLen < t.length := by omega
    show ∃ ws, _ ∧
      (gsmLoop maxLen ⟨t, [], maxLen⟩).text ++ ws ++
        lstrip (gsmLoop maxLen ⟨t, [], maxLen⟩).excess = t
    cases hls : lastSpaceIdx (t.take maxLen) with
    | none =>
      have hstep1 : gsmStep maxLen ⟨t, [], maxLen⟩ =
          some ⟨t.take maxLen, t.drop maxLen ++ [], maxLen - 1⟩ := by
        simp only [gsmStep]
        rw [if_neg (by omega), hls]
      have hfit : byteLen (t.take maxLen) ≤ maxLen := by
        have he : byteLen (t.take maxLen) = (t.take maxLen).length :=
          byteLen_eq_length _ (fun c hc => h1 c (List.take_subset _ _ hc))
        rw [he, List.length_take]
        omega
      have hloop : gsmLoop maxLen ⟨t, [], maxLen⟩ =
          ⟨t.take maxLen, t.drop maxLen ++ [], maxLen - 1⟩ := by
        rw [gsmLoop_next hstep1, gsmLoop_exit (gsmStep_none_iff.mpr hfit)]
      rw [hloop]
      simp only [List.append_nil]
      exact lstrip_reconstruct _ _ _ (List.take_append_drop maxLen t)
    | some i =>
      have hil : i < (t.take maxLen).length := lastSpaceIdx_lt_length _ _ hls
      rw [List.length_take] at hil
      have hstep1 : gsmStep maxLen ⟨t, [], maxLen⟩ =
          some ⟨t.take i, t.drop i, maxLen⟩ := by
        simp only [gsmStep]
        rw [if_neg (by omega), hls]
      have hfit : byteLen (t.take i) ≤ maxLen := by
        have he : byteLen (t.take i) = (t.take i).length :=
          byteLen_eq_length _ (fun c hc => h1 c (List.take_subset _ _ hc))
        rw [he, List.length_take]
        omega
      have hloop : gsmLoop maxLen ⟨t, [], maxLen⟩ = ⟨t.take i, t.drop i, maxLen⟩ := by
        rw [gsmLoop_next hstep1, gsmLoop_exit (gsmStep_none_iff.mpr hfit)]
      rw [hloop]
      exact lstrip_reconstruct _ _ _ (List.take_append_drop i t)

theorem gsm_reconstruct_single_byte_witness :
    ∃ ws : List Char, (∀ c ∈ ws, pySpace c = true) ∧
      (get_sendable_message sampleText 10).1 ++ ws ++
        (get_sendable_message sampleText 10).2 = sampleText :=
  gsm_reconstruct_single_byte sampleText 10 (by decide)

end Sopel

namespace Sopel

/-- Claim C4 counterexample: the boundary search looks for the space
character only, not for arbitrary whitespace.  On `"aaaa\tbbbbbb"` with a
budget of 8 bytes, a whitespace code point (the tab, at index 4, inside
the searched range of 8 code points) is present, yet
`text.rfind(' ', 0, 8)` finds nothing and the hard-cut branch is taken:
the sendable part is the hard cut `"aaaa\tbbb"`, not the whitespace cut
`"aaaa"` the claim predicts. -/
theorem gsm_space_only_cx :
    get_sendable_message tabText 8 =
      (['a', 'a', 'a', 'a', '\t', 'b', 'b', 'b'], ['b', 'b', 'b']) ∧
    pySpace '\t' = true ∧ tabText.getD 4 'A' = '\t' ∧ 4 < 8 ∧
    (get_sendable_message tabText 8).1 ≠ tabText.take 4 := by
  have hrun : gsmRun 8 20 ⟨tabText, [], 8⟩ =
      some ⟨['a', 'a', 'a', 'a', '\t', 'b', 'b', 'b'], ['b', 'b', 'b'], 7⟩ := by
    decide
  have hloop := gsmRun_some_eq 20 _ _ hrun
  have hmsg : get_sendable_message tabText 8 =
      (['a', 'a', 'a', 'a', '\t', 'b', 'b', 'b'], ['b', 'b', 'b']) := by
    show ((gsmLoop 8 ⟨tabText, [], 8⟩).text, lstrip (gsmLoop 8 ⟨tabText, [], 8⟩).excess) = _
    rw [hloop]
    decide
  refine ⟨hmsg, by decide, by decide, by decide, ?_⟩
  rw [hmsg]
  decide

/-- Claim C4 (amended): the search is for the space character `U+0020`
only, not for arbitrary whitespace.  On every iteration with the loop
guard holding, if a space occurs in the searched range (the first `uml`
code points of the candidate, i.e. strictly before the working offset),
the step cuts at the last such space; the hard-cut branch is taken exactly
when no space — even if other whitespace such as tab or newline — occurs
in that range. -/
theorem gsm_space_boundary (maxLen : Nat) (s : GsmState)
    (h : maxLen < byteLen s.text) :
    ((∃ j, j < (s.text.take s.uml).length ∧ (s.text.take s.uml).getD j 'A' = ' ') →
      ∃ i, i < (s.text.take s.uml).length ∧ (s.text.take s.uml).getD i 'A' = ' ' ∧
        (∀ j, i < j → j < (s.text.take s.uml).length →
          (s.text.take s.uml).getD j 'A' ≠ ' ') ∧
        gsmStep maxLen s = some ⟨s.text.take i, s.text.drop i, s.uml⟩) ∧
    ((∀ j, j < (s.text.take s.uml).length → (s.text.take s.uml).getD j 'A' ≠ ' ') →
      gsmStep maxLen s = some ⟨s.text.take s.uml, s.text.drop s.uml ++ s.excess, s.uml - 1⟩) := by
  constructor
  · rintro ⟨j, hj1, hj2⟩
    cases hls : lastSpaceIdx (s.text.take s.uml) with
    | none => exact absurd hj2 ((lastSpaceIdx_spec _).1 hls j hj1)
    | some i =>
      obtain ⟨hi1, hi2, hi3⟩ := (lastSpaceIdx_spec _).2 i hls
      refine ⟨i, hi1, hi2, hi3, ?_⟩
      simp only [gsmStep]
      rw [if_neg (by omega), hls]
  · intro hno
    cases hls : lastSpaceIdx (s.text.take s.uml) with
    | some i =>
      obtain ⟨hi1, hi2, _⟩ := (lastSpaceIdx_spec _).2 i hls
      exact absurd hi2 (hno i hi1)
    | none =>
      simp only [gsmStep]
      rw [if_neg (by omega), hls]

theorem gsm_space_boundary_witness :
    gsmStep 2 ⟨['a', 'b', 'c', 'd'], [], 2⟩ = some ⟨['a', 'b'], ['c', 'd'], 1⟩ :=
  (gsm_space_boundary 2 ⟨['a', 'b', 'c', 'd'], [], 2⟩ (by decide)).2 (by decide)

/-- Claim C10 counterexample: for a single-code-point text whose encoding
exceeds the budget, the excess is not always the code point returned
whole: the final `excess.lstrip()` also strips it when it is whitespace.
With `c = ' '` and budget `0` (the space's encoding has length `1 > 0`),
the result is `('', '')`, not `('', ' ')` — the code point is dropped
entirely. -/
theorem gsm_tiny_budget_cx :
    get_sendable_message [' '] 0 = ([], []) ∧ (([], [' ']) : List Char × List Char) ≠ ([], []) := by
  have hrun : gsmRun 0 3 ⟨[' '], [], 0⟩ = some ⟨[], [' '], 0⟩ := by decide
  have hloop := gsmRun_some_eq 3 _ _ hrun
  constructor
  · show ((gsmLoop 0 ⟨[' '], [], 0⟩).text, lstrip (gsmLoop 0 ⟨[' '], [], 0⟩).excess) = _
    rw [hloop]
    decide
  · decide

/-- Claim C10 (amended): for every single-code-point text `c` whose UTF-8
encoding is longer than the budget, the split returns an empty sendable
(so the byte bound is respected and a caller looping on the excess makes
no progress), and the excess is `lstrip(c)`: the code point `c` itself
when it is not whitespace, and empty when `c` is a whitespace code point
(the final left-strip removes it). -/
theorem gsm_tiny_budget (c : Char) (maxLen : Nat) (h : maxLen < utf8Len c) :
    get_sendable_message [c] maxLen = ([], if pySpace c then [] else [c]) := by
  have key : ∀ uml : Nat, (gsmLoop maxLen ⟨[c], [], uml⟩).text = [] ∧
      (gsmLoop maxLen ⟨[c], [], uml⟩).excess = [c] := by
    intro uml
    induction uml with
    | zero =>
      have hstep : gsmStep maxLen ⟨[c], [], 0⟩ = some ⟨[], [c], 0⟩ := by
        simp only [gsmStep]
        rw [if_neg (by simp only [byteLen]; omega)]
        rfl
      rw [gsmLoop_next hstep,
        gsmLoop_exit (gsmStep_none_iff.mpr (by simp [byteLen]))]
      exact ⟨rfl, rfl⟩
    | succ n ih =>
      by_cases hc : c = ' '
      · have hstep : gsmStep maxLen ⟨[c], [], n + 1⟩ = some ⟨[], [c], n + 1⟩ := by
          simp only [gsmStep]
          rw [if_neg (by simp only [byteLen]; omega)]
          simp [lastSpaceIdx, hc]
        rw [gsmLoop_next hstep,
          gsmLoop_exit (gsmStep_none_iff.mpr (by simp [byteLen]))]
        exact ⟨rfl, rfl⟩
      · have hstep : gsmStep maxLen ⟨[c], [], n + 1⟩ = some ⟨[c], [], n⟩ := by
          simp only [gsmStep]
          rw [if_neg (by simp only [byteLen]; omega)]
          simp [lastSpaceIdx, hc]
        rw [gsmLoop_next hstep]
        exact ih
  obtain ⟨h1, h2⟩ := key maxLen
  show ((gsmLoop maxLen ⟨[c], [], maxLen⟩).text,
      lstrip (gsmLoop maxLen ⟨[c], [], maxLen⟩).excess) = _
  rw [h1, h2, lstrip, List.dropWhile]
  by_cases hp : pySpace c
  · simp [hp, List.dropWhile]
  · simp [hp]

theorem gsm_tiny_budget_witness :
    (1 < utf8Len 'é') ∧ get_sendable_message ['é'] 1 = ([], ['é']) :=
  ⟨by decide, (gsm_tiny_budget 'é' 1 (by decide)).trans (by decide)⟩

end Sopel

namespace Sopel

variable {K V : Type}

/-! ## Dictionary lemmas -/

theorem dlookup_assocSet [DecidableEq K] (d : List (K × V)) (k q : K) (v : V) :
    dlookup (assocSet d k v) q = if q = k then some v else dlookup d q := by
  induction d with
  | nil =>
    by_cases h : q = k
    · simp [assocSet, dlookup, h]
    · simp only [assocSet, dlookup, if_neg h]
      rw [if_neg (fun hh => h hh.symm)]
  | cons p t ih =>
    obtain ⟨k2, v2⟩ := p
    simp only [assocSet]
    by_cases hk : k2 = k
    · rw [if_pos hk]
      by_cases hq : q = k
      · simp only [dlookup, if_pos hq]
        rw [if_pos hq.symm]
      · simp only [dlookup, if_neg hq]
        rw [if_neg (fun hh => hq hh.symm), if_neg (fun hh => hq (hk ▸ hh).symm)]
    · rw [if_neg hk]
      simp only [dlookup]
      by_cases hq : k2 = q
      · rw [if_pos hq, if_pos hq, if_neg (fun hh : q = k => hk (hq.trans hh))]
      · rw [if_neg hq, if_neg hq, ih]

theorem mem_keys_assocSet [DecidableEq K] (d : List (K × V)) (k : K) (v : V)
    (key : K) (h : key ∈ (assocSet d k v).map Prod.fst) :
    key = k ∨ key ∈ d.map Prod.fst := by
  induction d with
  | nil =>
    simp [assocSet] at h
    left
    exact h
  | cons p t ih =>
    obtain ⟨k2, v2⟩ := p
    simp only [assocSet] at h
    by_cases hk : k2 = k
    · rw [if_pos hk] at h
      simp only [List.map_cons, List.mem_cons] at h
      rcases h with h | h
      · left; exact h
      · right
        simp only [List.map_cons, List.mem_cons]
        right
        exact h
    · rw [if_neg hk] at h
      simp only [List.map_cons, List.mem_cons] at h
      rcases h with h | h
      · right
        simp [h]
      · rcases ih h with h2 | h2
        · left; exact h2
        · right
          simp only [List.map_cons, List.mem_cons]
          right
          exact h2

theorem keys_assocSet_nodup [DecidableEq K] (d : List (K × V)) (k : K) (v : V)
    (hd : (d.map Prod.fst).Nodup) : ((assocSet d k v).map Prod.fst).Nodup := by
  induction d with
  | nil => simp [assocSet]
  | cons p t ih =>
    obtain ⟨k2, v2⟩ := p
    simp only [List.map_cons, List.nodup_cons] at hd
    simp only [assocSet]
    by_cases hk : k2 = k
    · rw [if_pos hk]
      simp only [List.map_cons, List.nodup_cons]
      exact ⟨hk ▸ hd.1, hd.2⟩
    · rw [if_neg hk]
      simp only [List.map_cons, List.nodup_cons]
      refine ⟨?_, ih hd.2⟩
      intro hmem
      rcases mem_keys_assocSet t k v k2 hmem with h | h
      · exact hk h
      · exact hd.1 h

theorem nodupKeys_dictOfPairs [DecidableEq K] (ps : List (K × V)) :
    ((dictOfPairs ps).map Prod.fst).Nodup := by
  suffices h : ∀ (acc : List (K × V)), (acc.map Prod.fst).Nodup →
      ((ps.foldl (fun d p => assocSet d p.1 p.2) acc).map Prod.fst).Nodup by
    exact h [] (by simp)
  induction ps with
  | nil => intro acc hacc; exact hacc
  | cons p t ih =>
    intro acc hacc
    simp only [List.foldl_cons]
    exact ih _ (keys_assocSet_nodup acc p.1 p.2 hacc)

theorem dlookup_eq_of_mem [DecidableEq K] (d : List (K × V))
    (hd : (d.map Prod.fst).Nodup) (p : K × V) (hp : p ∈ d) :
    dlookup d p.1 = some p.2 := by
  induction d with
  | nil => cases hp
  | cons q t ih =>
    obtain ⟨k2, v2⟩ := q
    simp only [List.map_cons, List.nodup_cons] at hd
    rcases List.mem_cons.mp hp with h1 | h1
    · rw [h1]
      simp [dlookup]
    · have hne : k2 ≠ p.1 := by
        intro he
        exact hd.1 (he ▸ List.mem_map_of_mem Prod.fst h1)
      simp only [dlookup, if_neg hne]
      exact ih hd.2 h1

theorem dictEq_refl_of_nodup [DecidableEq K] [DecidableEq V] (d : List (K × V))
    (hd : (d.map Prod.fst).Nodup) : dictEq d d = true := by
  simp only [dictEq, Bool.and_eq_true, List.all_eq_true]
  constructor <;> (intro p hp; simpa using dlookup_eq_of_mem d hd p hp)

/-! ## Claim C1: lock release in `SopelMemory.__setitem__` -/

/-- Claim C1 counterexample: `__setitem__` has no `try`/`finally`, so when
the underlying `dict.__setitem__` raises (here: a key the dict rejects,
such as an unhashable one), the exception propagates with the lock still
held — the resulting state has `lockHeld = true`, and a subsequent `set`
or `contains` on the same map blocks on `acquire` instead of acquiring. -/
theorem memSetitem_lock_leak_cx :
    memSetitem (fun _ => false) (⟨[], false⟩ : SopelMemory Nat Nat) 0 0 =
      .raised ⟨[], true⟩ ∧
    memSetitem (fun _ => true) (⟨[], true⟩ : SopelMemory Nat Nat) 1 1 = .blocked ∧
    memContains (fun _ => true) (⟨[], true⟩ : SopelMemory Nat Nat) 0 = .blocked :=
  ⟨rfl, rfl, rfl⟩

/-- Claim C1 (amended): the lock is released on the normal exit path of
`__setitem__`; but when the underlying dict insert raises, the exception
propagates to the caller with the lock still held, and a subsequent
`__setitem__` or `__contains__` on the same map blocks instead of
acquiring the lock. -/
theorem memSetitem_lock_behavior [DecidableEq K] (hashable : K → Bool)
    (m : SopelMemory K V) (k : K) (v : V) (k2 : K) (v2 : V) :
    (∀ m2, memSetitem hashable m k v = .ok m2 → m2.lockHeld = false) ∧
    (∀ m2, memSetitem hashable m k v = .raised m2 →
      m2.lockHeld = true ∧
      memSetitem hashable m2 k2 v2 = .blocked ∧
      memContains hashable m2 k2 = .blocked) := by
  constructor
  · intro m2 h
    simp only [memSetitem] at h
    by_cases hl : m.lockHeld
    · rw [if_pos hl] at h
      cases h
    · rw [if_neg hl] at h
      by_cases hh : hashable k
      · rw [if_pos hh] at h
        cases h
        rfl
      · rw [if_neg hh] at h
        cases h
  · intro m2 h
    simp only [memSetitem] at h
    by_cases hl : m.lockHeld
    · rw [if_pos hl] at h
      cases h
    · rw [if_neg hl] at h
      by_cases hh : hashable k
      · rw [if_pos hh] at h
        cases h
      · rw [if_neg hh] at h
        cases h
        exact ⟨rfl, by simp [memSetitem], by simp [memContains]⟩

theorem memSetitem_lock_behavior_witness :
    ((⟨[], true⟩ : SopelMemory Nat Nat).lockHeld = true) ∧
    memSetitem (fun _ => true) (⟨[], true⟩ : SopelMemory Nat Nat) 1 1 = .blocked ∧
    memContains (fun _ => true) (⟨[], true⟩ : SopelMemory Nat Nat) 1 = .blocked :=
  (memSetitem_lock_behavior (fun _ => false) (⟨[], false⟩ : SopelMemory Nat Nat)
    0 0 1 1).2 ⟨[], true⟩ rfl

end Sopel

namespace Sopel

variable {K V : Type}

/-! ## Claim C9: equality and hashing ignore the lock -/

/-- Claim C9: `SopelMemory` aliases `__eq__`/`__ne__`/`__hash__` to the
`dict` ones, so equality depends only on the stored contents: the lock
state never changes the comparison result; two independently constructed
maps with identical contents compare equal; maps whose contents differ as
dictionaries compare unequal; and the (absent, `dict.__hash__ = None`)
hash is likewise lock-independent. -/
theorem memEq_ignores_lock [DecidableEq K] [DecidableEq V]
    (ps : List (K × V)) (d1 d2 : List (K × V)) (l1 l2 l3 l4 : Bool) :
    (memEq (⟨d1, l1⟩ : SopelMemory K V) ⟨d2, l2⟩ =
      memEq (⟨d1, l3⟩ : SopelMemory K V) ⟨d2, l4⟩) ∧
    (memEq (⟨dictOfPairs ps, l1⟩ : SopelMemory K V) ⟨dictOfPairs ps, l2⟩ = true) ∧
    (dictEq d1 d2 = false → memEq (⟨d1, l1⟩ : SopelMemory K V) ⟨d2, l2⟩ = false) ∧
    (memHash (⟨d1, l1⟩ : SopelMemory K V) = memHash (⟨d2, l2⟩ : SopelMemory K V)) := by
  refine ⟨rfl, ?_, ?_, rfl⟩
  · exact dictEq_refl_of_nodup _ (nodupKeys_dictOfPairs ps)
  · intro h
    exact h

theorem memEq_ignores_lock_witness :
    (memEq (⟨dictOfPairs [(1, 2)], false⟩ : SopelMemory Nat Nat)
      ⟨dictOfPairs [(1, 2)], true⟩ = true) ∧
    (memEq (⟨[(1, 2)], false⟩ : SopelMemory Nat Nat) ⟨[], true⟩ = false) :=
  ⟨(memEq_ignores_lock [(1, 2)] [(1, 2)] [] false true false true).2.1,
   (memEq_ignores_lock [(1, 2)] [(1, 2)] [] false true false true).2.2.1 (by decide)⟩

/-! ## Claim C3: normalised-storage invariant of `SopelIdentifierMemory` -/

/-- Claim C3 counterexample: construction with pre-seeded entries stores
the raw keys.  `SopelIdentifierMemory.__init__` passes its positional
arguments to `dict.__init__` without applying `make_identifier` (and even
assigns the factory only afterwards).  Seeding with the raw key `-3` under
the normalising factory `n ↦ |n|` stores `-3` itself, not the normalised
`3` — and a subsequent `__getitem__` with the very same raw key misses,
because it looks up the normalised key `3`. -/
theorem sim_init_stores_raw_cx :
    (SopelIdentifierMemory.init (fun n : Int => some (Int.ofNat n.natAbs))
      [((-3 : Int), (1 : Nat))]).mem.data = [(-3, 1)] ∧
    (fun n : Int => some (Int.ofNat n.natAbs)) (-3) = some 3 ∧
    ((-3 : Int) ≠ 3) ∧
    simGetitem (SopelIdentifierMemory.init (fun n : Int => some (Int.ofNat n.natAbs))
      [((-3 : Int), (1 : Nat))]) (-3) = .ok none :=
  ⟨rfl, rfl, by decide, rfl⟩

/-- Claim C3 (amended): every key stored through `__setitem__` is the
image of some raw key under the configured factory, so the
normalised-storage invariant holds for every memory built by a sequence of
`set` operations starting from a construction with no pre-seeded entries;
keys supplied at construction, however, are stored raw (see the
counterexample). -/
theorem sim_setitem_normalizes [DecidableEq K] (f : K → Option K)
    (ops : List (K × V)) :
    ∀ key ∈ ((ops.foldl simApplySet
        (SopelIdentifierMemory.init f [])).mem.data).map Prod.fst,
      ∃ raw, f raw = some key := by
  suffices h : ∀ (m : SopelIdentifierMemory K V), m.make_identifier = f →
      (∀ key ∈ m.mem.data.map Prod.fst, ∃ raw, f raw = some key) →
      ∀ key ∈ ((ops.foldl simApplySet m).mem.data).map Prod.fst,
        ∃ raw, f raw = some key by
    exact h _ rfl (by simp [SopelIdentifierMemory.init, SopelMemory.init, dictOfPairs])
  induction ops with
  | nil =>
    intro m hf hm
    exact hm
  | cons p t ih =>
    intro m hf hm
    simp only [List.foldl_cons]
    apply ih
    · simp only [simApplySet]
      cases hs : simSetitem m p.1 p.2 with
      | ok m2 =>
        simp only [simSetitem] at hs
        cases hfac : m.make_identifier p.1 with
        | none =>
          rw [hfac] at hs
          cases hs
        | some i =>
          rw [hfac] at hs
          simp only [memSetitem] at hs
          by_cases hl : m.mem.lockHeld
          · rw [if_pos hl] at hs
            cases hs
          · rw [if_neg hl] at hs
            simp only [if_true] at hs
            cases hs
            exact hf
      | convError k2 => exact hf
      | raised m2 =>
        simp only [simSetitem] at hs
        cases hfac : m.make_identifier p.1 with
        | none =>
          rw [hfac] at hs
          cases hs
        | some i =>
          rw [hfac] at hs
          simp only [memSetitem] at hs
          by_cases hl : m.mem.lockHeld
          · rw [if_pos hl] at hs
            cases hs
          · rw [if_neg hl] at hs
            simp only [if_true] at hs
            cases hs
      | blocked => exact hf
    · intro key hkey
      simp only [simApplySet] at hkey
      cases hs : simSetitem m p.1 p.2 with
      | ok m2 =>
        rw [hs] at hkey
        simp only [simSetitem] at hs
        cases hfac : m.make_identifier p.1 with
        | none =>
          rw [hfac] at hs
          cases hs
        | some i =>
          rw [hfac] at hs
          simp only [memSetitem] at hs
          by_cases hl : m.mem.lockHeld
          · rw [if_pos hl] at hs
            cases hs
          · rw [if_neg hl] at hs
            simp only [if_true] at hs
            cases hs
            rcases mem_keys_assocSet m.mem.data i p.2 key hkey with h1 | h1
            · exact ⟨p.1, by rw [← hf, hfac, h1]⟩
            · exact hm key h1
      | convError k2 =>
        rw [hs] at hkey
        exact hm key hkey
      | raised m2 =>
        rw [hs] at hkey
        simp only [simSetitem] at hs
        cases hfac : m.make_identifier p.1 with
        | none =>
          rw [hfac] at hs
          cases hs
        | some i =>
          rw [hfac] at hs
          simp only [memSetitem] at hs
          by_cases hl : m.mem.lockHeld
          · rw [if_pos hl] at hs
            cases hs
          · rw [if_neg hl] at hs
            simp only [if_true] at hs
            cases hs
      | blocked =>
        rw [hs] at hkey
        exact hm key hkey

theorem sim_setitem_normalizes_witness :
    ∃ raw : Int, (fun n : Int => some (Int.ofNat n.natAbs)) raw = some 3 :=
  sim_setitem_normalizes (fun n : Int => some (Int.ofNat n.natAbs))
    [((-3 : Int), (1 : Nat))] 3 (by decide)

end Sopel

namespace Sopel

variable {K V : Type}

/-! ## Claims C7 and C8: normalisation equivalence and conversion errors -/

/-- Claim C7: every key-accepting operation of `SopelIdentifierMemory`
first applies `make_identifier`, so for any two raw keys that the factory
sends to the same identifier, a `set` under the first followed by a `get`
under the second returns the stored value, and `contains` under the second
is true (on a map whose lock is free, as it is after construction and
after every normally-returning operation). -/
theorem sim_normalization_equivalence [DecidableEq K]
    (m : SopelIdentifierMemory K V) (a b : K) (v : V) (i : K)
    (hl : m.mem.lockHeld = false)
    (ha : m.make_identifier a = some i) (hb : m.make_identifier b = some i) :
    ∃ m2, simSetitem m a v = .ok m2 ∧
      simGetitem m2 b = .ok (some v) ∧
      simContains m2 b = .ok m2 true := by
  refine ⟨⟨⟨assocSet m.mem.data i v, false⟩, m.make_identifier⟩, ?_, ?_, ?_⟩
  · simp [simSetitem, ha, memSetitem, hl]
  · simp only [simGetitem, hb]
    rw [dlookup_assocSet, if_pos rfl]
  · simp only [simContains, hb, memContains]
    rw [dlookup_assocSet]
    simp

theorem sim_normalization_equivalence_witness :
    ∃ m2, simSetitem (SopelIdentifierMemory.init
        (fun n : Int => some (Int.ofNat n.natAbs)) ([] : List (Int × Nat)))
        (-3) 42 = .ok m2 ∧
      simGetitem m2 3 = .ok (some 42) ∧
      simContains m2 3 = .ok m2 true :=
  sim_normalization_equivalence _ (-3) 3 42 3 rfl rfl rfl

/-- Claim C8 counterexample: construction pre-seeded with a key the
factory rejects does not fail.  `__init__` hands the seed pairs straight
to `dict.__init__` and never invokes the factory, so with a factory
rejecting negative numbers and the seed key `-1`, construction succeeds
and stores the raw rejected key. -/
theorem sim_init_no_conv_error_cx :
    (SopelIdentifierMemory.init (fun n : Int => if 0 ≤ n then some n else none)
      [((-1 : Int), (5 : Nat))]).mem.data = [(-1, 5)] ∧
    (fun n : Int => if 0 ≤ n then some n else none) (-1) = none :=
  ⟨rfl, rfl⟩

/-- Claim C8 (amended): `get`, `set` and `contains` with a raw key the
factory cannot convert fail with the factory's conversion error, which
identifies the offending key and propagates to the caller before any lock
or dict activity; construction with pre-seeded entries, however, never
invokes the factory and stores the raw pairs without raising. -/
theorem sim_conversion_error [DecidableEq K]
    (m : SopelIdentifierMemory K V) (k : K) (v : V)
    (f : K → Option K) (ps : List (K × V))
    (hk : m.make_identifier k = none) :
    simSetitem m k v = .convError k ∧
    simGetitem m k = .error k ∧
    simContains m k = .convError k ∧
    (SopelIdentifierMemory.init f ps : SopelIdentifierMemory K V).mem.data =
      dictOfPairs ps := by
  refine ⟨?_, ?_, ?_, rfl⟩ <;> simp [simSetitem, simGetitem, simContains, hk]

theorem sim_conversion_error_witness :
    simSetitem (SopelIdentifierMemory.init
        (fun n : Int => if 0 ≤ n then some n else none) ([] : List (Int × Nat)))
      (-1) 7 = .convError (-1) ∧
    simGetitem (SopelIdentifierMemory.init
        (fun n : Int => if 0 ≤ n then some n else none) ([] : List (Int × Nat)))
      (-1) = .error (-1) ∧
    simContains (SopelIdentifierMemory.init
        (fun n : Int => if 0 ≤ n then some n else none) ([] : List (Int × Nat)))
      (-1) = .convError (-1) ∧
    (SopelIdentifierMemory.init (fun n : Int => if 0 ≤ n then some n else none)
      [((-2 : Int), (9 : Nat))]).mem.data = dictOfPairs [((-2 : Int), (9 : Nat))] :=
  sim_conversion_error _ (-1) 7 _ [((-2 : Int), (9 : Nat))] rfl

end Sopel
